import Mathlib

/-!
Shallow embedding of `src/analyze.py` (tick-data analysis for NSE India
trade records) and verification of its specification claims.

Conventions of the embedding:
* timestamps and prices are rationals (`ℚ`); Python `datetime` arithmetic
  is exact, so `ℚ` models it faithfully;
* Python operations that can raise (`df.irow(i)` / `df.ix[0]` on an
  out-of-range index) are modelled with `Option` / `Except`: `none` or
  `Except.error` is a raised exception;
* the `while t < t_max` loop of `sample` is modelled with an explicit
  fuel argument; the fuel is chosen large enough that, for a positive
  sampling interval, the loop guard always fails before the fuel runs
  out (proved below), so the fuel is an artifact of totality only.
-/

namespace NSE

/-- Minimum of a list of rationals, as `pandas.Series.min` over a column:
junk value `0` on the empty column (pandas would give `NaN`). -/
def listMin : List ℚ → ℚ
  | [] => 0
  | x :: xs => xs.foldl min x

/-- Maximum of a list of rationals, as `pandas.Series.max`. -/
def listMax : List ℚ → ℚ
  | [] => 0
  | x :: xs => xs.foldl max x

/-- The record-consumption predicate of the resampler's inner loop:
does the record's timestamp lie strictly before the sample time `t`? -/
def ltPred (t : ℚ) : ℚ × α → Bool := fun p => decide (p.1 < t)

/-- Timestamp at or before `t` (used only to state the spec's original
at-or-before claim). -/
def lePred (t : ℚ) : ℚ × α → Bool := fun p => decide (p.1 ≤ t)

/-- The inner cursor loop of `sample` (analyze.py lines 75-78):
`while t > df.irow(i)[date_time_col]: last = df.irow(i); i += 1`.
Records are pairs `(timestamp, value)`.  Reading past the end of the
record list (`df.irow(i)` with `i = len(df)`) raises, modelled as `none`.
On success it returns the updated last-known value and the remaining
(un-consumed) suffix of the records. -/
def advance (t : ℚ) : α → List (ℚ × α) → Option (α × List (ℚ × α))
  | _, [] => none
  | last, p :: rest =>
    if p.1 < t then advance t p.2 rest else some (last, p :: rest)

/-- The outer sampling loop of `sample` (analyze.py lines 73-81):
`while t < t_max: emit t; advance cursor; emit last value; t += delta`.
`acc` accumulates emitted `(sample_time, value)` pairs in reverse.
`fuel = 0` is exhaustion of the totality fuel (never reached for a
positive interval, see `sampleAux_spec`). -/
def sampleAux (δ tmax : ℚ) : ℕ → ℚ → α → List (ℚ × α) → List (ℚ × α) →
    Option (List (ℚ × α))
  | 0, _, _, _, _ => none
  | Nat.succ fuel, t, last, suffix, acc =>
    if t < tmax then
      match advance t last suffix with
      | none => none
      | some (last', suffix') =>
        sampleAux δ tmax fuel (t + δ) last' suffix' ((t, last') :: acc)
    else
      some acc.reverse

/-- Fuel bound for the sampling loop: one more than the number of grid
points `t_min, t_min+δ, …` strictly below `t_max` when `δ > 0`. -/
def sampleFuel (δ span : ℚ) : ℕ := (⌈span / δ⌉).toNat + 1

/-- Number of outer-loop iterations remaining from sample time `t`:
the size of `\x7b k : ℕ | t + k·δ < tmax \x7d` when `δ > 0`. -/
def iterCount (δ tmax t : ℚ) : ℕ := (⌈(tmax - t) / δ⌉).toNat

/-- `sample(df, delta, date_time_col, *data_cols)` from analyze.py
lines 26-82, for a record list of `(timestamp, value)` pairs (the value
stands for the tuple of data columns).  `t_min`/`t_max` are the min/max
of the timestamp column; the last-known value starts from row 0
and the cursor starts at row 1.  An empty record list makes `irow(0)`
raise, modelled as `none`. -/
def sample (δ : ℚ) (records : List (ℚ × α)) : Option (List (ℚ × α)) :=
  match records with
  | [] => none
  | r0 :: rest =>
    let tmin := listMin (r0.1 :: rest.map Prod.fst)
    let tmax := listMax (r0.1 :: rest.map Prod.fst)
    sampleAux δ tmax (sampleFuel δ (tmax - tmin)) tmin r0.2 rest []

/-- Value of the last element of `l`, or `last` if `l` is empty: the
last-known-value state after consuming the records in `l`. -/
def lastVal (last : α) (l : List (ℚ × α)) : α :=
  match l.getLast? with
  | some p => p.2
  | none => last

/-- Last-known value after consuming every record of `rest` with
timestamp strictly before `t`, starting from `v0` (row 0's value). -/
def lastBefore (v0 : α) (t : ℚ) (rest : List (ℚ × α)) : α :=
  lastVal v0 (rest.takeWhile (ltPred t))

/-- Value of the most recent record of `records` with timestamp strictly
before `t` (ties resolved by keeping the later record), defaulting to the
first record's value when no record lies strictly before `t`; `none` on
an empty record list.  This is the value the resampler actually emits at
sample time `t`. -/
def valueStrictlyBefore (records : List (ℚ × α)) (t : ℚ) : Option α :=
  match records with
  | [] => none
  | r0 :: _ =>
    some (lastVal r0.2 (records.filter (ltPred t)))

/-- Modelled from the spec claim's words (for comparison only): the value
of the most recent record with timestamp at or before `t`, ties at equal
instants resolved last-write-wins. -/
def specValueAtOrBefore (records : List (ℚ × α)) (t : ℚ) : Option α :=
  (records.filter (lePred t)).getLast?.map Prod.snd

/-- `Series.diff()` restricted to one day group, with the leading `NaN`
dropped (analyze.py lines 160-166): adjacent differences within the
group, `k` records yielding `k - 1` values. -/
def adjDiff (l : List ℚ) : List ℚ :=
  List.zipWith (fun prev cur => cur - prev) l l.tail

/-- `df.groupby('trade_date')[col].apply(lambda x: x.diff())` followed by
dropping the per-group leading `NaN`s: the day-bounded differencer.
`days` is the list of per-day ordered value sequences. -/
def dayBoundedDiff (days : List (List ℚ)) : List ℚ :=
  (days.map adjDiff).flatten

/-- Per-day bps-return payload (analyze.py line 199):
`x['trade_price'].diff() / x['trade_price']` with the leading `NaN`
dropped — the i-th value is `(p_i − p_(i-1)) / p_i`. -/
def dayReturns (l : List ℚ) : List ℚ :=
  List.zipWith (fun prev cur => (cur - prev) / cur) l l.tail

/-- All day-bounded returns, flattened across days in day order
(`s_returns` of analyze.py lines 197-199, non-null entries). -/
def allReturns (days : List (List ℚ)) : List ℚ :=
  (days.map dayReturns).flatten

/-- `Series.mean()`: sum divided by length (junk `0` on the empty series,
where pandas gives `NaN`; `ℚ` division by zero is `0`). -/
def mean (l : List ℚ) : ℚ := l.sum / l.length

/-- `Series.var()` with the pandas default `ddof = 1`: sum of squared
deviations from the mean divided by `n - 1` (junk on series of length
≤ 1, where pandas gives `NaN`).  `Series.std()` is its square root. -/
def sampleVariance (l : List ℚ) : ℚ :=
  (l.map (fun x => (x - mean l) ^ 2)).sum / ((l.length : ℚ) - 1)

/-- `mean_returns = s_returns.mean() * 10000` (analyze.py line 200). -/
def meanReturnsBps (days : List (List ℚ)) : ℚ :=
  mean (allReturns days) * 10000

/-- The square of `std_returns = s_returns.std() * 10000` (analyze.py
line 201).  `std` is the square root of `sampleVariance`; squaring keeps
the definition inside `ℚ`. -/
def stdReturnsBpsSq (days : List (List ℚ)) : ℚ :=
  sampleVariance (allReturns days) * 10000 ^ 2

/-- Linear interpolation between order statistics of an already-sorted
list `s` at quantile `q`: the core of `Series.quantile` with the pandas
default linear interpolation (the R-7 estimator).
`h = q·(n−1)`, `i = ⌊h⌋`, result `s[i] + (h−i)·(s[i+1] − s[i])`.
Junk `0` on the empty list (pandas gives `NaN`). -/
def interpQuantile (s : List ℚ) (q : ℚ) : ℚ :=
  if s.length = 0 then 0
  else
    let h := q * ((s.length : ℚ) - 1)
    let i := (⌊h⌋).toNat
    let f := h - (i : ℚ)
    let lo := s.getD i 0
    let hi := s.getD (i + 1) lo
    lo + f * (hi - lo)

/-- `Series.quantile(q)` with the default linear (R-7) interpolation:
sort the values, then interpolate between order statistics. -/
def quantileR7 (l : List ℚ) (q : ℚ) : ℚ :=
  interpQuantile (l.insertionSort (· ≤ ·)) q

/-- `len(df[df[col] < thr])` / `sum(series < thr)`: the count of raw
values strictly below a threshold. -/
def countBelow (l : List ℚ) (thr : ℚ) : ℕ :=
  l.countP (fun x => decide (x < thr))

/-- Count of values of `l` strictly below the `q`-quantile of `l` itself
(analyze.py lines 139-141 and 174-176). -/
def quartileCount (l : List ℚ) (q : ℚ) : ℕ :=
  countBelow l (quantileR7 l q)

/-- Python 2 `int(x)` on a float/rational: truncation toward zero. -/
def ratTrunc (x : ℚ) : ℤ := if 0 ≤ x then ⌊x⌋ else ⌈x⌉

/-- One parsed trade record, restricted to the fields the analysis
reads: `trade_date` (as an abstract day key, ordered like the parsed
dates), `trade_time` (seconds into the day, sub-second precision exact
in `ℚ`), `trade_price` and `trade_quantity`.  The remaining 14 CSV
fields are never read by `analyze` and are omitted. -/
structure TradeRow where
  trade_date : ℕ
  trade_time : ℚ
  trade_price : ℚ
  trade_quantity : ℤ
deriving DecidableEq, Repr

/-- The derived `trade_date_time` column (analyze.py lines 150-155):
the combined instant of `trade_date` and `trade_time`, on a global
time axis (day key times 86400 seconds plus time of day, modelling
`datetime.datetime.strptime` of the concatenated fields). -/
def tradeTimestamp (r : TradeRow) : ℚ :=
  (r.trade_date : ℚ) * 86400 + r.trade_time

/-- `df.groupby(key)`: group keys in sorted order (pandas sorts group
keys by default), each paired with the rows having that key in their
original order. -/
def groupByKey [LinearOrder κ] [DecidableEq κ] (key : β → κ)
    (rows : List β) : List (κ × List β) :=
  ((rows.map key).dedup.insertionSort (· ≤ ·)).map
    (fun k => (k, rows.filter (fun r => decide (key r = k))))

/-- One per-day call of `sample` (analyze.py lines 188-191):
3 minutes = 180 seconds, timestamp column `trade_date_time`, data
column `trade_price` (the constant `trade_date` data column is carried
by the surrounding grouping instead). -/
def resampleDay (g : List TradeRow) : Option (List (ℚ × ℚ)) :=
  sample 180 (g.map (fun r => (tradeTimestamp r, r.trade_price)))

/-- Collect a list of `Option` results, failing if any failed (the
groupby-apply of a function that can raise). -/
def collectSome : List (Option β) → Option (List β)
  | [] => some []
  | none :: _ => none
  | some b :: rest => (collectSome rest).map (fun l => b :: l)

/-- Errors `analyze` can raise (modelled): an exception escaping a
`sample` call, or the `df.ix[0]` row access on an empty table. -/
inductive AnalyzeError where
  | resampleRaised
  | emptyInput
deriving DecidableEq, Repr

/-- `daily_price_max_list` (analyze.py lines 208-209):
`map(lambda x: 10000*int(x), df.groupby('trade_date')['trade_price'].apply(max) - df.ix[0]['trade_price'])`.
`df.ix[0]` on an empty table raises, modelled by `Option`. -/
def dailyPriceMaxBps (rows : List TradeRow) : Option (List ℤ) :=
  (rows.head?).map (fun r0 =>
    (((groupByKey (fun r => r.trade_date) rows).map
        (fun kg => listMax (kg.2.map (fun r => r.trade_price)))).map
      (fun x => x - r0.trade_price)).map
      (fun x => 10000 * ratTrunc x))

/-- `daily_price_min_list` (analyze.py lines 210-211), same with `min`. -/
def dailyPriceMinBps (rows : List TradeRow) : Option (List ℤ) :=
  (rows.head?).map (fun r0 =>
    (((groupByKey (fun r => r.trade_date) rows).map
        (fun kg => listMin (kg.2.map (fun r => r.trade_price)))).map
      (fun x => x - r0.trade_price)).map
      (fun x => 10000 * ratTrunc x))

/-- `analyze(file_name)` (analyze.py lines 84-212), on an already-parsed
record list (CSV reading is the external collaborator).  Every statistic
of the docstring's report is computed, bound to a local — and then
discarded: the function returns the parsed table joined with the derived
`trade_date_time` column (`return df`, line 212), not the report.
Failures of intermediate steps propagate as `Except.error`, matching
Python's eager evaluation order (the `sample` calls of line 188 run
before the `df.ix[0]` accesses of lines 209/211). -/
def analyze (rows : List TradeRow) : Except AnalyzeError (List (TradeRow × ℚ)) :=
  let prices := rows.map (fun r => r.trade_price)
  let _N_trade_price_q1 := quartileCount prices (1/4)
  let _N_trade_price_q2 := quartileCount prices (1/2)
  let _N_trade_price_q3 := quartileCount prices (3/4)
  let _max_trade_price := listMax prices
  let _min_trade_price := listMin prices
  let _mean_trade_price := mean prices
  let withTs := rows.map (fun r => (r, tradeTimestamp r))
  let dayGroups := groupByKey (fun r => r.trade_date) rows
  let s_inter_time :=
    dayBoundedDiff (dayGroups.map (fun kg => kg.2.map tradeTimestamp))
  let _N_inter_time_q1 := quartileCount s_inter_time (1/4)
  let _N_inter_time_q2 := quartileCount s_inter_time (1/2)
  let _N_inter_time_q3 := quartileCount s_inter_time (3/4)
  let s_daily_vol :=
    dayGroups.map (fun kg => ((kg.2.map (fun r => r.trade_quantity)).sum : ℚ))
  let _mean_daily_vol := mean s_daily_vol
  let _max_daily_vol := listMax s_daily_vol
  let _min_daily_vol := listMin s_daily_vol
  let _median_daily_vol := quantileR7 s_daily_vol (1/2)
  match collectSome (dayGroups.map (fun kg => resampleDay kg.2)) with
  | none => Except.error AnalyzeError.resampleRaised
  | some res =>
    let dayPrices := res.map (fun day => day.map Prod.snd)
    let _std_trade_price := sampleVariance dayPrices.flatten
    let _mean_returns := meanReturnsBps dayPrices
    let _std_returns_sq := stdReturnsBpsSq dayPrices
    match dailyPriceMaxBps rows, dailyPriceMinBps rows with
    | some _daily_price_max_list, some _daily_price_min_list =>
      Except.ok withTs
    | _, _ => Except.error AnalyzeError.emptyInput

end NSE

namespace NSE

theorem foldl_min_mem (xs : List ℚ) : ∀ x : ℚ, xs.foldl min x ∈ x :: xs := by
  induction xs with
  | nil => intro x; simp
  | cons y ys ih =>
    intro x
    have h := ih (min x y)
    simp only [List.foldl_cons]
    rcases List.mem_cons.mp h with h1 | h1
    · rcases min_choice x y with h2 | h2
      · rw [h1, h2]; exact List.mem_cons_self _ _
      · rw [h1, h2]; exact List.mem_cons_of_mem _ (List.mem_cons_self _ _)
    · exact List.mem_cons_of_mem _ (List.mem_cons_of_mem _ h1)

theorem foldl_min_le (xs : List ℚ) :
    ∀ x : ℚ, xs.foldl min x ≤ x ∧ ∀ y ∈ xs, xs.foldl min x ≤ y := by
  induction xs with
  | nil => intro x; simp
  | cons y ys ih =>
    intro x
    obtain ⟨h1, h2⟩ := ih (min x y)
    simp only [List.foldl_cons]
    refine ⟨le_trans h1 (min_le_left _ _), ?_⟩
    intro z hz
    rcases List.mem_cons.mp hz with hz | hz
    · subst hz; exact le_trans h1 (min_le_right _ _)
    · exact h2 z hz

theorem foldl_max_mem (xs : List ℚ) : ∀ x : ℚ, xs.foldl max x ∈ x :: xs := by
  induction xs with
  | nil => intro x; simp
  | cons y ys ih =>
    intro x
    have h := ih (max x y)
    simp only [List.foldl_cons]
    rcases List.mem_cons.mp h with h1 | h1
    · rcases max_choice x y with h2 | h2
      · rw [h1, h2]; exact List.mem_cons_self _ _
      · rw [h1, h2]; exact List.mem_cons_of_mem _ (List.mem_cons_self _ _)
    · exact List.mem_cons_of_mem _ (List.mem_cons_of_mem _ h1)

theorem le_foldl_max (xs : List ℚ) :
    ∀ x : ℚ, x ≤ xs.foldl max x ∧ ∀ y ∈ xs, y ≤ xs.foldl max x := by
  induction xs with
  | nil => intro x; simp
  | cons y ys ih =>
    intro x
    obtain ⟨h1, h2⟩ := ih (max x y)
    simp only [List.foldl_cons]
    refine ⟨le_trans (le_max_left _ _) h1, ?_⟩
    intro z hz
    rcases List.mem_cons.mp hz with hz | hz
    · subst hz; exact le_trans (le_max_right _ _) h1
    · exact h2 z hz

theorem listMin_mem {l : List ℚ} (h : l ≠ []) : listMin l ∈ l := by
  cases l with
  | nil => exact absurd rfl h
  | cons x xs => exact foldl_min_mem xs x

theorem listMin_le {l : List ℚ} : ∀ x ∈ l, listMin l ≤ x := by
  cases l with
  | nil => intro x hx; exact absurd hx (List.not_mem_nil x)
  | cons y ys =>
    intro x hx
    obtain ⟨h1, h2⟩ := foldl_min_le ys y
    rcases List.mem_cons.mp hx with hx | hx
    · exact hx ▸ h1
    · exact h2 x hx

theorem listMax_mem {l : List ℚ} (h : l ≠ []) : listMax l ∈ l := by
  cases l with
  | nil => exact absurd rfl h
  | cons x xs => exact foldl_max_mem xs x

theorem le_listMax {l : List ℚ} : ∀ x ∈ l, x ≤ listMax l := by
  cases l with
  | nil => intro x hx; exact absurd hx (List.not_mem_nil x)
  | cons y ys =>
    intro x hx
    obtain ⟨h1, h2⟩ := le_foldl_max ys y
    rcases List.mem_cons.mp hx with hx | hx
    · exact hx ▸ h1
    · exact h2 x hx

theorem iterCount_eq_zero {δ tmax t : ℚ} (hδ : 0 < δ) (h : tmax ≤ t) :
    iterCount δ tmax t = 0 := by
  unfold iterCount
  have h1 : (tmax - t) / δ ≤ 0 := by
    rw [div_le_iff₀ hδ]
    simpa using (by linarith : tmax - t ≤ 0)
  have h2 : ⌈(tmax - t) / δ⌉ ≤ 0 := by
    have := Int.ceil_le (α := ℚ) (z := 0) (a := (tmax - t) / δ)
    exact this.mpr (by exact_mod_cast h1)
  exact Int.toNat_of_nonpos h2

theorem iterCount_pos {δ tmax t : ℚ} (hδ : 0 < δ) (h : t < tmax) :
    1 ≤ iterCount δ tmax t := by
  unfold iterCount
  have h1 : 0 < (tmax - t) / δ := div_pos (by linarith) hδ
  have h2 : 0 < ⌈(tmax - t) / δ⌉ := Int.ceil_pos.mpr h1
  omega

theorem iterCount_step {δ tmax t : ℚ} (hδ : 0 < δ) (h : t < tmax) :
    iterCount δ tmax (t + δ) + 1 = iterCount δ tmax t := by
  unfold iterCount
  have hδ0 : δ ≠ 0 := ne_of_gt hδ
  have h1 : (tmax - (t + δ)) / δ = (tmax - t) / δ - 1 := by
    field_simp
    ring
  have h2 : ⌈(tmax - (t + δ)) / δ⌉ = ⌈(tmax - t) / δ⌉ - 1 := by
    rw [h1]
    have hcast : (tmax - t) / δ - 1 = (tmax - t) / δ - ((1 : ℤ) : ℚ) := by
      push_cast
      ring
    rw [hcast]
    exact Int.ceil_sub_int _ 1
  have h3 : 0 < ⌈(tmax - t) / δ⌉ := Int.ceil_pos.mpr (div_pos (by linarith) hδ)
  omega

theorem dropWhile_dropWhile {β : Type} {p q : β → Bool} :
    ∀ l : List β, (∀ x ∈ l, p x = true → q x = true) →
      (l.dropWhile p).dropWhile q = l.dropWhile q := by
  intro l
  induction l with
  | nil => intro _; simp
  | cons a l ih =>
    intro h
    by_cases hpa : p a = true
    · have hqa : q a = true := h a (List.mem_cons_self _ _) hpa
      rw [List.dropWhile_cons, if_pos hpa, List.dropWhile_cons, if_pos hqa]
      exact ih (fun x hx => h x (List.mem_cons_of_mem _ hx))
    · rw [List.dropWhile_cons, if_neg hpa]

theorem takeWhile_split {β : Type} {p q : β → Bool} :
    ∀ l : List β, (∀ x ∈ l, p x = true → q x = true) →
      l.takeWhile q = l.takeWhile p ++ (l.dropWhile p).takeWhile q := by
  intro l
  induction l with
  | nil => intro _; simp
  | cons a l ih =>
    intro h
    by_cases hpa : p a = true
    · have hqa : q a = true := h a (List.mem_cons_self _ _) hpa
      rw [List.takeWhile_cons, if_pos hqa, List.takeWhile_cons, if_pos hpa,
        List.dropWhile_cons, if_pos hpa, List.cons_append]
      rw [ih (fun x hx => h x (List.mem_cons_of_mem _ hx))]
    · rw [List.takeWhile_cons (p := p), if_neg hpa, List.dropWhile_cons, if_neg hpa,
        List.nil_append]

theorem lastVal_cons {α : Type} (last : α) (p : ℚ × α) (l : List (ℚ × α)) :
    lastVal last (p :: l) = lastVal p.2 l := by
  cases l with
  | nil => rfl
  | cons q l =>
    unfold lastVal
    rw [List.getLast?_cons_cons,
      List.getLast?_eq_getLast (q :: l) (List.cons_ne_nil q l)]

theorem lastVal_append {α : Type} (last : α) (a b : List (ℚ × α)) :
    lastVal last (a ++ b) = lastVal (lastVal last a) b := by
  induction a generalizing last with
  | nil => rfl
  | cons p a ih => rw [List.cons_append, lastVal_cons, ih, lastVal_cons]

theorem advance_some {α : Type} {t : ℚ} :
    ∀ (l : List (ℚ × α)) (last : α), l.dropWhile (ltPred t) ≠ [] →
      advance t last l
        = some (lastVal last (l.takeWhile (ltPred t)), l.dropWhile (ltPred t)) := by
  intro l
  induction l with
  | nil => intro last h; simp [List.dropWhile] at h
  | cons p l ih =>
    intro last h
    by_cases hp : p.1 < t
    · have hp' : ltPred t p = true := by simp [ltPred, hp]
      rw [List.dropWhile_cons, if_pos hp'] at h
      simp only [advance, if_pos hp]
      rw [List.dropWhile_cons, if_pos hp', List.takeWhile_cons, if_pos hp',
        lastVal_cons]
      exact ih p.2 h
    · have hp' : ¬ (ltPred t p = true) := by simp [ltPred, hp]
      simp only [advance, if_neg hp]
      rw [List.dropWhile_cons, if_neg hp', List.takeWhile_cons, if_neg hp']
      rfl

theorem lastBefore_step {α : Type} (v0 : α) {s t : ℚ} (hst : s ≤ t)
    (rest : List (ℚ × α)) :
    lastVal (lastBefore v0 s rest) ((rest.dropWhile (ltPred s)).takeWhile (ltPred t))
      = lastBefore v0 t rest := by
  unfold lastBefore
  rw [← lastVal_append, ← takeWhile_split rest]
  intro x _ hx
  simp only [ltPred, decide_eq_true_eq] at hx ⊢
  linarith

end NSE

namespace NSE

theorem sampleAux_spec {α : Type} (δ tmax : ℚ) (v0 : α) (rest : List (ℚ × α))
    (hδ : 0 < δ)
    (Hq : ∀ u : ℚ, u < tmax → rest.dropWhile (ltPred u) ≠ []) :
    ∀ (fuel : ℕ) (t s : ℚ) (acc : List (ℚ × α)), s ≤ t →
      iterCount δ tmax t < fuel →
      ∃ out : List (ℚ × α),
        sampleAux δ tmax fuel t (lastBefore v0 s rest)
            (rest.dropWhile (ltPred s)) acc
          = some (acc.reverse ++ out)
        ∧ out.length = iterCount δ tmax t
        ∧ ∀ p ∈ out, p.1 < tmax ∧ (∃ k : ℕ, p.1 = t + (k : ℚ) * δ)
            ∧ p.2 = lastBefore v0 p.1 rest := by
  intro fuel
  induction fuel with
  | zero => intro t s acc _ hlt; exact absurd hlt (Nat.not_lt_zero _)
  | succ fuel ih =>
    intro t s acc hst hfuel
    by_cases hguard : t < tmax
    · have himp : ∀ x ∈ rest, ltPred s x = true → ltPred t x = true := by
        intro x _ hx
        simp only [ltPred, decide_eq_true_eq] at hx ⊢
        linarith
      have hne : (rest.dropWhile (ltPred s)).dropWhile (ltPred t) ≠ [] := by
        rw [dropWhile_dropWhile rest himp]
        exact Hq t hguard
      have hadv := advance_some (rest.dropWhile (ltPred s)) (lastBefore v0 s rest) hne
      rw [dropWhile_dropWhile rest himp] at hadv
      rw [lastBefore_step v0 hst rest] at hadv
      obtain ⟨out, hout, hlen, hmem⟩ :=
        ih (t + δ) t ((t, lastBefore v0 t rest) :: acc) (by linarith)
          (by have := iterCount_step hδ hguard; omega)
      refine ⟨(t, lastBefore v0 t rest) :: out, ?_, ?_, ?_⟩
      · simp only [sampleAux, if_pos hguard, hadv]
        rw [hout]
        simp [List.reverse_cons, List.append_assoc]
      · have := iterCount_step hδ hguard
        simp only [List.length_cons, hlen]
        omega
      · intro p hp
        rcases List.mem_cons.mp hp with hp | hp
        · subst hp
          exact ⟨hguard, ⟨0, by push_cast; ring⟩, rfl⟩
        · obtain ⟨h1, ⟨k, hk⟩, h3⟩ := hmem p hp
          exact ⟨h1, ⟨k + 1, by rw [hk]; push_cast; ring⟩, h3⟩
    · refine ⟨[], ?_, ?_, ?_⟩
      · simp only [sampleAux, if_neg hguard]
        rw [List.append_nil]
      · rw [iterCount_eq_zero hδ (le_of_not_lt hguard)]
        rfl
      · intro p hp
        exact absurd hp (List.not_mem_nil p)

theorem sorted_head_le {α : Type} {r0 : ℚ × α} {rest : List (ℚ × α)}
    (hs : List.Sorted (· ≤ ·) ((r0 :: rest).map Prod.fst)) :
    ∀ p ∈ rest, r0.1 ≤ p.1 := by
  intro p hp
  rw [List.map_cons] at hs
  exact (List.sorted_cons.mp hs).1 p.1 (List.mem_map_of_mem Prod.fst hp)

theorem listMin_sorted_head {α : Type} {r0 : ℚ × α} {rest : List (ℚ × α)}
    (hs : List.Sorted (· ≤ ·) ((r0 :: rest).map Prod.fst)) :
    listMin ((r0 :: rest).map Prod.fst) = r0.1 := by
  apply le_antisymm
  · apply listMin_le
    simp
  · have hmem := listMin_mem (l := (r0 :: rest).map Prod.fst) (by simp)
    rw [List.map_cons] at hmem
    rcases List.mem_cons.mp hmem with h | h
    · exact le_of_eq h.symm
    · rw [List.map_cons] at hs
      exact (List.sorted_cons.mp hs).1 _ h

theorem exists_ge_listMax {α : Type} {r0 q : ℚ × α} {rest' : List (ℚ × α)}
    (hs : List.Sorted (· ≤ ·) ((r0 :: q :: rest').map Prod.fst)) :
    ∃ w ∈ q :: rest', listMax ((r0 :: q :: rest').map Prod.fst) ≤ w.1 := by
  have hmem := listMax_mem (l := (r0 :: q :: rest').map Prod.fst) (by simp)
  rw [List.map_cons] at hmem
  rw [List.map_cons]
  rcases List.mem_cons.mp hmem with h | h
  · refine ⟨q, List.mem_cons_self _ _, ?_⟩
    rw [h]
    exact sorted_head_le hs q (List.mem_cons_self _ _)
  · obtain ⟨w, hw, hweq⟩ := List.mem_map.mp h
    exact ⟨w, hw, le_of_eq hweq.symm⟩

theorem filter_eq_takeWhile_of_sorted {α : Type} {t : ℚ} :
    ∀ l : List (ℚ × α), List.Sorted (· ≤ ·) (l.map Prod.fst) →
      l.filter (ltPred t) = l.takeWhile (ltPred t) := by
  intro l
  induction l with
  | nil => intro _; rfl
  | cons a l ih =>
    intro hs
    rw [List.map_cons] at hs
    obtain ⟨ha, hs'⟩ := List.sorted_cons.mp hs
    by_cases hat : a.1 < t
    · have hpa : ltPred t a = true := by simp [ltPred, hat]
      rw [List.filter_cons, if_pos hpa, List.takeWhile_cons, if_pos hpa, ih hs']
    · have hpa : ¬ (ltPred t a = true) := by simp [ltPred, hat]
      rw [List.filter_cons, if_neg hpa, List.takeWhile_cons, if_neg hpa]
      apply List.filter_eq_nil_iff.mpr
      intro x hx
      have : a.1 ≤ x.1 := ha x.1 (List.mem_map_of_mem Prod.fst hx)
      simp only [ltPred, decide_eq_true_eq]
      intro hxt
      exact hat (lt_of_le_of_lt this hxt)

theorem takeWhile_nil_of_head_ge {α : Type} {t : ℚ} {r0 : ℚ × α}
    {rest : List (ℚ × α)}
    (hs : List.Sorted (· ≤ ·) ((r0 :: rest).map Prod.fst)) (h0 : ¬ r0.1 < t) :
    rest.takeWhile (ltPred t) = [] := by
  cases rest with
  | nil => rfl
  | cons q rest' =>
    have hq : r0.1 ≤ q.1 := sorted_head_le hs q (List.mem_cons_self _ _)
    have : ¬ (ltPred t q = true) := by
      simp only [ltPred, decide_eq_true_eq]
      intro hqt
      exact h0 (lt_of_le_of_lt hq hqt)
    rw [List.takeWhile_cons, if_neg this]

theorem valueStrictlyBefore_eq {α : Type} (r0 : ℚ × α) (rest : List (ℚ × α))
    (t : ℚ) (hs : List.Sorted (· ≤ ·) ((r0 :: rest).map Prod.fst)) :
    valueStrictlyBefore (r0 :: rest) t = some (lastBefore r0.2 t rest) := by
  show some (lastVal r0.2 ((r0 :: rest).filter (ltPred t)))
      = some (lastBefore r0.2 t rest)
  rw [filter_eq_takeWhile_of_sorted (r0 :: rest) hs]
  unfold lastBefore
  by_cases h0 : r0.1 < t
  · have hp : ltPred t r0 = true := by simp [ltPred, h0]
    rw [List.takeWhile_cons, if_pos hp, lastVal_cons]
  · have hp : ¬ (ltPred t r0 = true) := by simp [ltPred, h0]
    rw [List.takeWhile_cons, if_neg hp, takeWhile_nil_of_head_ge hs h0]

theorem sample_spec {α : Type} (δ : ℚ) (r0 : ℚ × α) (rest : List (ℚ × α))
    (hδ : 0 < δ) (hs : List.Sorted (· ≤ ·) ((r0 :: rest).map Prod.fst)) :
    ∃ out : List (ℚ × α),
      sample δ (r0 :: rest) = some out
      ∧ out.length
          = iterCount δ (listMax ((r0 :: rest).map Prod.fst))
              (listMin ((r0 :: rest).map Prod.fst))
      ∧ ∀ p ∈ out,
          p.1 < listMax ((r0 :: rest).map Prod.fst)
          ∧ (∃ k : ℕ, p.1 = listMin ((r0 :: rest).map Prod.fst) + (k : ℚ) * δ)
          ∧ some p.2 = valueStrictlyBefore (r0 :: rest) p.1 := by
  cases rest with
  | nil =>
    refine ⟨[], ?_, ?_, ?_⟩
    · simp [sample, sampleAux, listMin, listMax, sampleFuel, lt_irrefl]
    · rw [iterCount_eq_zero hδ (by simp [listMin, listMax])]
      rfl
    · intro p hp
      exact absurd hp (List.not_mem_nil p)
  | cons q rest' =>
    have hmin : listMin ((r0 :: q :: rest').map Prod.fst) = r0.1 :=
      listMin_sorted_head hs
    have Hq : ∀ u : ℚ, u < listMax ((r0 :: q :: rest').map Prod.fst) →
        (q :: rest').dropWhile (ltPred u) ≠ [] := by
      intro u hu hnil
      obtain ⟨w, hw, hwle⟩ := exists_ge_listMax hs
      have := List.dropWhile_eq_nil_iff.mp hnil w hw
      simp only [ltPred, decide_eq_true_eq] at this
      linarith
    have hinit_suffix : (q :: rest').dropWhile (ltPred r0.1) = q :: rest' := by
      rw [List.dropWhile_cons, if_neg]
      simp only [ltPred, decide_eq_true_eq, not_lt]
      exact sorted_head_le hs q (List.mem_cons_self _ _)
    have hinit_last : lastBefore r0.2 r0.1 (q :: rest') = r0.2 := by
      unfold lastBefore
      rw [takeWhile_nil_of_head_ge hs (lt_irrefl r0.1)]
      rfl
    obtain ⟨out, hout, hlen, hmem⟩ :=
      sampleAux_spec δ (listMax ((r0 :: q :: rest').map Prod.fst)) r0.2
        (q :: rest') hδ Hq
        (iterCount δ (listMax ((r0 :: q :: rest').map Prod.fst)) r0.1 + 1)
        r0.1 r0.1 [] le_rfl (Nat.lt_succ_self _)
    rw [hinit_suffix, hinit_last] at hout
    simp only [List.reverse_nil, List.nil_append] at hout
    refine ⟨out, ?_, ?_, ?_⟩
    · simp only [sample]
      rw [← List.map_cons Prod.fst r0 (q :: rest'), hmin]
      exact hout
    · rw [hmin]
      exact hlen
    · intro p hp
      obtain ⟨h1, h2, h3⟩ := hmem p hp
      refine ⟨h1, by rw [hmin]; exact h2, ?_⟩
      rw [valueStrictlyBefore_eq r0 (q :: rest') p.1 hs, h3]

end NSE

namespace NSE

/-- Claim C1, counterexample: the claim as stated is false.  With records
`[(0,10), (2,20), (4,30)]` and `Δ = 2`, the resampler emits `(2, 10)`,
but the most recent record at or before time `2` (last-write-wins) is
`(2, 20)` with value `20 ≠ 10`: the record lying exactly at a sample
time is not consumed at that sample time. -/
theorem c1_counterexample :
    sample 2 [((0 : ℚ), (10 : ℚ)), (2, 20), (4, 30)] = some [(0, 10), (2, 10)]
    ∧ specValueAtOrBefore [((0 : ℚ), (10 : ℚ)), (2, 20), (4, 30)] 2 = some 20
    ∧ (10 : ℚ) ≠ 20 := by
  refine ⟨?_, ?_, ?_⟩
  · norm_num [sample, sampleAux, sampleFuel, advance, listMin, listMax]
  · norm_num [specValueAtOrBefore, lePred, List.filter]
  · norm_num

/-- Claim C1, amended: for every non-empty day group sorted ascending by
timestamp and every positive interval, every point emitted by `sample`
carries the data value of the most recent input record whose timestamp
is STRICTLY BEFORE that sample time (ties among such records resolved by
keeping the later record's value), defaulting to the first record's
value when no record lies strictly before; values are never
interpolated. -/
theorem c1_amended_forward_fill {α : Type} (δ : ℚ) (records : List (ℚ × α))
    (hne : records ≠ []) (hδ : 0 < δ)
    (hs : List.Sorted (· ≤ ·) (records.map Prod.fst)) :
    ∃ out : List (ℚ × α), sample δ records = some out
      ∧ ∀ p ∈ out, some p.2 = valueStrictlyBefore records p.1 := by
  cases records with
  | nil => exact absurd rfl hne
  | cons r0 rest =>
    obtain ⟨out, h1, _, h3⟩ := sample_spec δ r0 rest hδ hs
    exact ⟨out, h1, fun p hp => (h3 p hp).2.2⟩

theorem c1_witness :
    ([((0 : ℚ), (10 : ℚ)), (2, 20), (4, 30)] ≠ ([] : List (ℚ × ℚ)))
    ∧ (0 : ℚ) < 2
    ∧ List.Sorted (· ≤ ·) ([((0 : ℚ), (10 : ℚ)), (2, 20), (4, 30)].map Prod.fst)
    ∧ ∃ out : List (ℚ × ℚ),
        sample 2 [((0 : ℚ), (10 : ℚ)), (2, 20), (4, 30)] = some out
        ∧ ∀ p ∈ out,
            some p.2 = valueStrictlyBefore [((0 : ℚ), (10 : ℚ)), (2, 20), (4, 30)] p.1 :=
  ⟨by decide, by decide, by decide,
    c1_amended_forward_fill 2 _ (by decide) (by decide) (by decide)⟩

theorem ceil_three_halves : ⌈(3 : ℚ) / 2⌉ = 2 := by
  rw [Int.ceil_eq_iff]
  norm_num

/-- Claim C2, counterexample: the claim as stated is false.  With records
`[(0,10), (3,20)]` and `Δ = 2`, `sample` emits two points, `(0,10)` and
`(2,10)`, but `floor((t_max − t_min)/Δ) = floor(3/2) = 1 ≠ 2`. -/
theorem c2_counterexample :
    (∃ out : List (ℚ × ℚ),
      sample 2 [((0 : ℚ), (10 : ℚ)), (3, 20)] = some out ∧ out.length = 2)
    ∧ (⌊(listMax ([((0 : ℚ), (10 : ℚ)), (3, 20)].map Prod.fst)
          - listMin ([((0 : ℚ), (10 : ℚ)), (3, 20)].map Prod.fst)) / 2⌋).toNat = 1
    ∧ (2 : ℕ) ≠ 1 := by
  refine ⟨⟨[(0, 10), (2, 10)], ?_, rfl⟩, ?_, by norm_num⟩
  · norm_num [sample, sampleAux, sampleFuel, advance, listMin, listMax,
      ceil_three_halves]
  · norm_num [listMax, listMin]

/-- Claim C2, amended: for every non-empty input to `sample` sorted
ascending by timestamp, with first-to-last span `t_max − t_min` and
interval `Δ > 0`, the number of emitted samples equals
`ceil((t_max − t_min)/Δ)` (not `floor`: the grid point at `t_min` is
always emitted when the span is positive, and the grid stops strictly
before `t_max`). -/
theorem c2_amended_sample_count {α : Type} (δ : ℚ) (records : List (ℚ × α))
    (hne : records ≠ []) (hδ : 0 < δ)
    (hs : List.Sorted (· ≤ ·) (records.map Prod.fst)) :
    ∃ out : List (ℚ × α), sample δ records = some out
      ∧ out.length
          = (⌈(listMax (records.map Prod.fst) - listMin (records.map Prod.fst))
                / δ⌉).toNat := by
  cases records with
  | nil => exact absurd rfl hne
  | cons r0 rest =>
    obtain ⟨out, h1, h2, _⟩ := sample_spec δ r0 rest hδ hs
    exact ⟨out, h1, h2⟩

theorem c2_witness :
    ([((0 : ℚ), (10 : ℚ)), (3, 20)] ≠ ([] : List (ℚ × ℚ)))
    ∧ (0 : ℚ) < 2
    ∧ List.Sorted (· ≤ ·) ([((0 : ℚ), (10 : ℚ)), (3, 20)].map Prod.fst)
    ∧ ∃ out : List (ℚ × ℚ),
        sample 2 [((0 : ℚ), (10 : ℚ)), (3, 20)] = some out
        ∧ out.length
            = (⌈(listMax ([((0 : ℚ), (10 : ℚ)), (3, 20)].map Prod.fst)
                  - listMin ([((0 : ℚ), (10 : ℚ)), (3, 20)].map Prod.fst)) / 2⌉).toNat :=
  ⟨by decide, by decide, by decide,
    c2_amended_sample_count 2 _ (by decide) (by decide) (by decide)⟩

/-- Claim C8: for every day group containing exactly one record,
resampling returns an empty sequence (`some []`, not an error / not a
crash), and both interarrival differencing and return differencing
yield zero values for that day. -/
theorem c8_single_record_day (t v δ x : ℚ) :
    sample δ [(t, v)] = some [] ∧ adjDiff [x] = [] ∧ dayReturns [x] = [] := by
  refine ⟨?_, rfl, rfl⟩
  simp [sample, sampleAux, listMin, listMax, sampleFuel, lt_irrefl]

/-- Claim C10: for every non-empty sorted input whose time span
`t_max − t_min` is positive and strictly smaller than the sampling
interval `Δ`, `sample` yields exactly one sample, at the first record's
timestamp and carrying the first record's value. -/
theorem c10_span_smaller_than_interval {α : Type} (δ : ℚ) (r0 : ℚ × α)
    (rest : List (ℚ × α)) (hδ : 0 < δ)
    (hs : List.Sorted (· ≤ ·) ((r0 :: rest).map Prod.fst))
    (hpos : 0 < listMax ((r0 :: rest).map Prod.fst)
        - listMin ((r0 :: rest).map Prod.fst))
    (hlt : listMax ((r0 :: rest).map Prod.fst)
        - listMin ((r0 :: rest).map Prod.fst) < δ) :
    sample δ (r0 :: rest) = some [r0] := by
  obtain ⟨out, h1, h2, h3⟩ := sample_spec δ r0 rest hδ hs
  have hiter : iterCount δ (listMax ((r0 :: rest).map Prod.fst))
      (listMin ((r0 :: rest).map Prod.fst)) = 1 := by
    unfold iterCount
    have h4 : (0 : ℚ) < (listMax ((r0 :: rest).map Prod.fst)
        - listMin ((r0 :: rest).map Prod.fst)) / δ := div_pos hpos hδ
    have h5 : (listMax ((r0 :: rest).map Prod.fst)
        - listMin ((r0 :: rest).map Prod.fst)) / δ ≤ 1 := by
      rw [div_le_one hδ]
      linarith
    have h6 : ⌈(listMax ((r0 :: rest).map Prod.fst)
        - listMin ((r0 :: rest).map Prod.fst)) / δ⌉ ≤ 1 :=
      Int.ceil_le.mpr (by exact_mod_cast h5)
    have h7 : 0 < ⌈(listMax ((r0 :: rest).map Prod.fst)
        - listMin ((r0 :: rest).map Prod.fst)) / δ⌉ := Int.ceil_pos.mpr h4
    omega
  rw [hiter] at h2
  obtain ⟨p, hp⟩ := List.length_eq_one.mp h2
  obtain ⟨hlt_max, ⟨k, hk⟩, hval⟩ := h3 p (by rw [hp]; exact List.mem_cons_self _ _)
  have hminr0 : listMin ((r0 :: rest).map Prod.fst) = r0.1 := listMin_sorted_head hs
  have hk0 : k = 0 := by
    by_contra hk1
    have hk2 : (1 : ℚ) ≤ (k : ℚ) := by exact_mod_cast Nat.one_le_iff_ne_zero.mpr hk1
    have hk3 : δ ≤ (k : ℚ) * δ := by nlinarith
    have : listMin ((r0 :: rest).map Prod.fst) + δ ≤ p.1 := by
      rw [hk]
      linarith
    linarith
  have hp1 : p.1 = r0.1 := by
    rw [hk, hk0, hminr0]
    push_cast
    ring
  have hv : valueStrictlyBefore (r0 :: rest) p.1 = some r0.2 := by
    rw [valueStrictlyBefore_eq r0 rest p.1 hs]
    unfold lastBefore
    rw [takeWhile_nil_of_head_ge hs (by rw [hp1]; exact lt_irrefl r0.1)]
    rfl
  have hp2 : p.2 = r0.2 := by
    rw [hv] at hval
    exact Option.some.inj hval
  have hpr : p = r0 := Prod.ext hp1 hp2
  rw [h1, hp, hpr]

theorem c10_witness :
    (0 : ℚ) < 2
    ∧ List.Sorted (· ≤ ·) ([((0 : ℚ), (10 : ℚ)), (1, 20)].map Prod.fst)
    ∧ 0 < listMax ([((0 : ℚ), (10 : ℚ)), (1, 20)].map Prod.fst)
        - listMin ([((0 : ℚ), (10 : ℚ)), (1, 20)].map Prod.fst)
    ∧ listMax ([((0 : ℚ), (10 : ℚ)), (1, 20)].map Prod.fst)
        - listMin ([((0 : ℚ), (10 : ℚ)), (1, 20)].map Prod.fst) < 2
    ∧ sample 2 [((0 : ℚ), (10 : ℚ)), (1, 20)] = some [((0 : ℚ), (10 : ℚ))] :=
  ⟨by norm_num, by decide, by norm_num [listMax, listMin],
    by norm_num [listMax, listMin],
    c10_span_smaller_than_interval 2 ((0 : ℚ), (10 : ℚ)) [(1, 20)]
      (by norm_num) (by decide) (by norm_num [listMax, listMin])
      (by norm_num [listMax, listMin])⟩

end NSE

namespace NSE

theorem getD_sorted_mono {s : List ℚ} (hs : List.Sorted (· ≤ ·) s) {j k : ℕ}
    (hjk : j ≤ k) (hk : k < s.length) : s.getD j 0 ≤ s.getD k 0 := by
  have hj : j < s.length := lt_of_le_of_lt hjk hk
  rw [List.getD_eq_getElem s 0 hj, List.getD_eq_getElem s 0 hk]
  rcases Nat.lt_or_ge j k with hlt | hge
  · exact List.pairwise_iff_getElem.mp hs j k hj hk hlt
  · have hjk2 : j = k := le_antisymm hjk hge
    subst hjk2
    exact le_refl _

theorem interp_aux {s : List ℚ} (hs : List.Sorted (· ≤ ·) s) {h : ℚ}
    (hh0 : 0 ≤ h) (hhn : h ≤ (s.length : ℚ) - 1) :
    (⌊h⌋).toNat < s.length
    ∧ ((⌊h⌋).toNat : ℚ) ≤ h
    ∧ h - ((⌊h⌋).toNat : ℚ) < 1
    ∧ 0 ≤ s.getD ((⌊h⌋).toNat + 1) (s.getD (⌊h⌋).toNat 0) - s.getD (⌊h⌋).toNat 0
    ∧ ∀ j : ℕ, (⌊h⌋).toNat < j → j < s.length →
        s.getD (⌊h⌋).toNat 0 + (h - ((⌊h⌋).toNat : ℚ))
            * (s.getD ((⌊h⌋).toNat + 1) (s.getD (⌊h⌋).toNat 0)
                - s.getD (⌊h⌋).toNat 0)
          ≤ s.getD j 0 := by
  have hfl0 : 0 ≤ ⌊h⌋ := Int.floor_nonneg.mpr hh0
  have hcast : (((⌊h⌋).toNat : ℤ) : ℚ) = ((⌊h⌋ : ℤ) : ℚ) := by
    rw [Int.toNat_of_nonneg hfl0]
  have hcast' : ((⌊h⌋).toNat : ℚ) = ((⌊h⌋ : ℤ) : ℚ) := by
    exact_mod_cast hcast
  have hile : ((⌊h⌋).toNat : ℚ) ≤ h := by
    rw [hcast']
    exact Int.floor_le h
  have hfr : h - ((⌊h⌋).toNat : ℚ) < 1 := by
    rw [hcast']
    have := Int.lt_floor_add_one h
    linarith
  have hn1 : 1 ≤ s.length := by
    by_contra hcon
    have : s.length = 0 := by omega
    rw [this] at hhn
    norm_num at hhn
    linarith
  have hin : (⌊h⌋).toNat < s.length := by
    have h1 : ⌊h⌋ ≤ ⌊((s.length : ℚ) - 1)⌋ := Int.floor_le_floor hhn
    have h2 : ((s.length : ℚ) - 1) = ((s.length - 1 : ℕ) : ℚ) := by
      have : (1:ℚ) ≤ (s.length : ℚ) := by exact_mod_cast hn1
      push_cast [Nat.cast_sub hn1]
      ring
    rw [h2, Int.floor_natCast] at h1
    omega
  refine ⟨hin, hile, hfr, ?_, ?_⟩
  · by_cases hsucc : (⌊h⌋).toNat + 1 < s.length
    · have hdd : s.getD ((⌊h⌋).toNat + 1) (s.getD (⌊h⌋).toNat 0)
          = s.getD ((⌊h⌋).toNat + 1) 0 := by
        rw [List.getD_eq_getElem s _ hsucc, List.getD_eq_getElem s 0 hsucc]
      rw [hdd]
      have := getD_sorted_mono hs (by omega : (⌊h⌋).toNat ≤ (⌊h⌋).toNat + 1) hsucc
      linarith
    · rw [List.getD_eq_default s _ (by omega)]
      linarith
  · intro j hj hjn
    have hsucc : (⌊h⌋).toNat + 1 < s.length := by omega
    have hd : s.getD ((⌊h⌋).toNat + 1) (s.getD (⌊h⌋).toNat 0)
        = s.getD ((⌊h⌋).toNat + 1) 0 := by
      rw [List.getD_eq_getElem s _ hsucc, List.getD_eq_getElem s 0 hsucc]
    have hlo_le : s.getD (⌊h⌋).toNat 0 ≤ s.getD ((⌊h⌋).toNat + 1) 0 :=
      getD_sorted_mono hs (Nat.le_succ _) hsucc
    have hup : s.getD ((⌊h⌋).toNat + 1) 0 ≤ s.getD j 0 :=
      getD_sorted_mono hs (by omega) hjn
    rw [hd]
    nlinarith [hile, hfr, hlo_le, hup]

theorem interpQuantile_mono {s : List ℚ} (hs : List.Sorted (· ≤ ·) s)
    {q₁ q₂ : ℚ} (hq0 : 0 ≤ q₁) (hq12 : q₁ ≤ q₂) (hq1 : q₂ ≤ 1) :
    interpQuantile s q₁ ≤ interpQuantile s q₂ := by
  unfold interpQuantile
  by_cases hn : s.length = 0
  · simp [hn]
  · simp only [if_neg hn]
    have hn1 : 1 ≤ s.length := Nat.one_le_iff_ne_zero.mpr hn
    have hncast : (1 : ℚ) ≤ (s.length : ℚ) := by exact_mod_cast hn1
    have hh10 : 0 ≤ q₁ * ((s.length : ℚ) - 1) := by nlinarith
    have hh20 : 0 ≤ q₂ * ((s.length : ℚ) - 1) := by nlinarith
    have hh12 : q₁ * ((s.length : ℚ) - 1) ≤ q₂ * ((s.length : ℚ) - 1) := by
      nlinarith
    have hh2n : q₂ * ((s.length : ℚ) - 1) ≤ (s.length : ℚ) - 1 := by nlinarith
    have hh1n : q₁ * ((s.length : ℚ) - 1) ≤ (s.length : ℚ) - 1 :=
      le_trans hh12 hh2n
    obtain ⟨hin1, hile1, hfr1, hd1, hup1⟩ := interp_aux hs hh10 hh1n
    obtain ⟨hin2, hile2, hfr2, hd2, hup2⟩ := interp_aux hs hh20 hh2n
    have hii : (⌊q₁ * ((s.length : ℚ) - 1)⌋).toNat
        ≤ (⌊q₂ * ((s.length : ℚ) - 1)⌋).toNat :=
      Int.toNat_le_toNat (Int.floor_le_floor hh12)
    rcases Nat.lt_or_ge (⌊q₁ * ((s.length : ℚ) - 1)⌋).toNat
        (⌊q₂ * ((s.length : ℚ) - 1)⌋).toNat with hlt | hge
    · -- different cells: chain through the order statistic at i₂
      have hQ1 : s.getD (⌊q₁ * ((s.length : ℚ) - 1)⌋).toNat 0
            + (q₁ * ((s.length : ℚ) - 1)
                - ((⌊q₁ * ((s.length : ℚ) - 1)⌋).toNat : ℚ))
              * (s.getD ((⌊q₁ * ((s.length : ℚ) - 1)⌋).toNat + 1)
                    (s.getD (⌊q₁ * ((s.length : ℚ) - 1)⌋).toNat 0)
                  - s.getD (⌊q₁ * ((s.length : ℚ) - 1)⌋).toNat 0)
          ≤ s.getD (⌊q₂ * ((s.length : ℚ) - 1)⌋).toNat 0 :=
        hup1 _ hlt hin2
      have hQ2 : s.getD (⌊q₂ * ((s.length : ℚ) - 1)⌋).toNat 0
          ≤ s.getD (⌊q₂ * ((s.length : ℚ) - 1)⌋).toNat 0
            + (q₂ * ((s.length : ℚ) - 1)
                - ((⌊q₂ * ((s.length : ℚ) - 1)⌋).toNat : ℚ))
              * (s.getD ((⌊q₂ * ((s.length : ℚ) - 1)⌋).toNat + 1)
                    (s.getD (⌊q₂ * ((s.length : ℚ) - 1)⌋).toNat 0)
                  - s.getD (⌊q₂ * ((s.length : ℚ) - 1)⌋).toNat 0) := by
        nlinarith [hile2, hd2]
      exact le_trans hQ1 hQ2
    · -- same cell: compare the interpolation weights
      have heq : (⌊q₁ * ((s.length : ℚ) - 1)⌋).toNat
          = (⌊q₂ * ((s.length : ℚ) - 1)⌋).toNat := le_antisymm hii hge
      rw [← heq]
      have hw : q₁ * ((s.length : ℚ) - 1)
            - ((⌊q₁ * ((s.length : ℚ) - 1)⌋).toNat : ℚ)
          ≤ q₂ * ((s.length : ℚ) - 1)
            - ((⌊q₁ * ((s.length : ℚ) - 1)⌋).toNat : ℚ) := by
        linarith
      nlinarith [hd1, hw, hile1]

theorem quantileR7_perm (l l' : List ℚ) (hp : l.Perm l') (q : ℚ) :
    quantileR7 l q = quantileR7 l' q := by
  unfold quantileR7
  congr 1
  exact List.eq_of_perm_of_sorted
    ((List.perm_insertionSort _ l).trans (hp.trans (List.perm_insertionSort _ l').symm))
    (List.sorted_insertionSort _ l)
    (List.sorted_insertionSort _ l')

theorem quartileCount_perm (l l' : List ℚ) (hp : l.Perm l') (q : ℚ) :
    quartileCount l q = quartileCount l' q := by
  unfold quartileCount countBelow
  rw [quantileR7_perm l l' hp q]
  exact hp.countP_eq _

theorem quartileCount_mono (l : List ℚ) {q₁ q₂ : ℚ} (hq0 : 0 ≤ q₁)
    (hq12 : q₁ ≤ q₂) (hq1 : q₂ ≤ 1) :
    quartileCount l q₁ ≤ quartileCount l q₂ := by
  unfold quartileCount countBelow
  apply List.countP_mono_left
  intro x _ hx
  simp only [decide_eq_true_eq] at hx ⊢
  have hm : quantileR7 l q₁ ≤ quantileR7 l q₂ :=
    interpQuantile_mono (List.sorted_insertionSort _ l) hq0 hq12 hq1
  exact lt_of_lt_of_le hx hm

/-- Claim C6: for every input table, the counts of trade prices strictly
below the 0.25, 0.50 and 0.75 quantiles (R-7 linear interpolation over
the entire distribution) satisfy `N_q1 ≤ N_q2 ≤ N_q3 ≤ total_count`, and
each count is invariant under any permutation of the input rows. -/
theorem c6_quartile_counts (l l' : List ℚ) (hp : l.Perm l') :
    (quartileCount l (1/4) ≤ quartileCount l (1/2)
      ∧ quartileCount l (1/2) ≤ quartileCount l (3/4)
      ∧ quartileCount l (3/4) ≤ l.length)
    ∧ quartileCount l (1/4) = quartileCount l' (1/4)
    ∧ quartileCount l (1/2) = quartileCount l' (1/2)
    ∧ quartileCount l (3/4) = quartileCount l' (3/4) := by
  refine ⟨⟨?_, ?_, ?_⟩, ?_, ?_, ?_⟩
  · exact quartileCount_mono l (by norm_num) (by norm_num) (by norm_num)
  · exact quartileCount_mono l (by norm_num) (by norm_num) (by norm_num)
  · exact List.countP_le_length _
  · exact quartileCount_perm l l' hp _
  · exact quartileCount_perm l l' hp _
  · exact quartileCount_perm l l' hp _

theorem c6_witness :
    ([(3 : ℚ), 1, 2].Perm [1, 2, 3])
    ∧ ((quartileCount [(3 : ℚ), 1, 2] (1/4) ≤ quartileCount [(3 : ℚ), 1, 2] (1/2)
        ∧ quartileCount [(3 : ℚ), 1, 2] (1/2) ≤ quartileCount [(3 : ℚ), 1, 2] (3/4)
        ∧ quartileCount [(3 : ℚ), 1, 2] (3/4) ≤ ([(3 : ℚ), 1, 2] : List ℚ).length)
      ∧ quartileCount [(3 : ℚ), 1, 2] (1/4) = quartileCount [(1 : ℚ), 2, 3] (1/4)
      ∧ quartileCount [(3 : ℚ), 1, 2] (1/2) = quartileCount [(1 : ℚ), 2, 3] (1/2)
      ∧ quartileCount [(3 : ℚ), 1, 2] (3/4) = quartileCount [(1 : ℚ), 2, 3] (3/4)) :=
  ⟨by decide, c6_quartile_counts [(3 : ℚ), 1, 2] [1, 2, 3] (by decide)⟩

end NSE

namespace NSE

theorem adjDiff_length (l : List ℚ) : (adjDiff l).length = l.length - 1 := by
  unfold adjDiff
  rw [List.length_zipWith, List.length_tail]
  omega

theorem length_le_sum_lengths (days : List (List ℚ))
    (h : ∀ d ∈ days, d ≠ []) : days.length ≤ (days.map List.length).sum := by
  induction days with
  | nil => simp
  | cons d days ih =>
    simp only [List.map_cons, List.sum_cons, List.length_cons]
    have h1 := ih (fun x hx => h x (List.mem_cons_of_mem _ hx))
    have h2 := List.length_pos.mpr (h d (List.mem_cons_self _ _))
    omega

/-- Claim C3: for every partition of the records into day groups all
non-empty, the day-bounded differencing emits exactly `k − 1` values for
a day with `k` records, and `N_total − D` values in total: the first
element of each day contributes no output, and (by construction of the
per-day `zipWith`) no difference bridges two days. -/
theorem c3_day_bounded_diff (days : List (List ℚ)) (h : ∀ d ∈ days, d ≠ []) :
    (∀ d ∈ days, (adjDiff d).length = d.length - 1)
    ∧ (dayBoundedDiff days).length
        = (days.map List.length).sum - days.length := by
  refine ⟨fun d _ => adjDiff_length d, ?_⟩
  induction days with
  | nil => rfl
  | cons d days ih =>
    have hd : d ≠ [] := h d (List.mem_cons_self _ _)
    have hlen : 1 ≤ d.length := List.length_pos.mpr hd
    have ihh := ih (fun x hx => h x (List.mem_cons_of_mem _ hx))
    have hsum := length_le_sum_lengths days
      (fun x hx => h x (List.mem_cons_of_mem _ hx))
    unfold dayBoundedDiff at ihh ⊢
    simp only [List.map_cons, List.flatten_cons, List.length_append,
      List.sum_cons, List.length_cons]
    rw [ihh, adjDiff_length]
    omega

theorem c3_witness :
    (∀ d ∈ [[(1 : ℚ), 2], [5]], d ≠ [])
    ∧ ((∀ d ∈ [[(1 : ℚ), 2], [5]], (adjDiff d).length = d.length - 1)
      ∧ (dayBoundedDiff [[(1 : ℚ), 2], [5]]).length
          = ([[(1 : ℚ), 2], [5]].map List.length).sum
              - ([[(1 : ℚ), 2], [5]] : List (List ℚ)).length) :=
  ⟨by decide, c3_day_bounded_diff _ (by decide)⟩

theorem dayReturns_getD (l : List ℚ) : ∀ i : ℕ, i + 1 < l.length →
    (dayReturns l).getD i 0
      = (l.getD (i + 1) 0 - l.getD i 0) / l.getD (i + 1) 0 := by
  induction l with
  | nil => intro i h; simp at h
  | cons a l ih =>
    intro i h
    cases l with
    | nil => simp at h
    | cons b l' =>
      cases i with
      | zero => rfl
      | succ i =>
        have hlt : i + 1 < (b :: l').length := by
          simp only [List.length_cons] at h ⊢
          omega
        have hih := ih i hlt
        rw [show dayReturns (a :: b :: l')
            = ((b - a) / b) :: dayReturns (b :: l') from rfl]
        simp only [List.getD_cons_succ]
        exact hih

theorem sum_map_mul_f (l : List ℚ) (f : ℚ → ℚ) (c : ℚ) :
    (l.map (fun x => f x * c)).sum = (l.map f).sum * c := by
  induction l with
  | nil => simp
  | cons a l ih => simp [ih, add_mul]

theorem sum_map_mul (l : List ℚ) (c : ℚ) :
    (l.map (fun x => x * c)).sum = l.sum * c := by
  induction l with
  | nil => simp
  | cons a l ih => simp [ih, add_mul]

theorem mean_map_mul (l : List ℚ) (c : ℚ) :
    mean (l.map (fun x => x * c)) = mean l * c := by
  unfold mean
  rw [sum_map_mul, List.length_map, div_mul_eq_mul_div]

theorem sampleVariance_map_mul (l : List ℚ) (c : ℚ) :
    sampleVariance (l.map (fun x => x * c)) = sampleVariance l * c ^ 2 := by
  unfold sampleVariance
  rw [List.length_map, mean_map_mul, List.map_map]
  have hcomp : ((fun x => (x - mean l * c) ^ 2) ∘ fun x => x * c)
      = fun x => (x - mean l) ^ 2 * c ^ 2 := by
    funext x
    simp only [Function.comp]
    ring
  rw [hcomp, sum_map_mul_f l (fun x => (x - mean l) ^ 2) (c ^ 2),
    div_mul_eq_mul_div]

/-- Claim C7: for every collection of resampled per-day price sequences,
the i-th per-day return is `(pᵢ − pᵢ₋₁) / pᵢ` (difference divided by the
CURRENT price), the first sample of each day contributes no return, and
the reported mean (and the square of the reported standard deviation)
equal the mean (and sample variance) of the day-bounded return series
scaled by 10000 (respectively 10000²), i.e. of the bps-return series. -/
theorem c7_returns (days : List (List ℚ)) :
    (∀ d ∈ days, (dayReturns d).length = d.length - 1)
    ∧ (∀ d ∈ days, ∀ i : ℕ, i + 1 < d.length →
        (dayReturns d).getD i 0
          = (d.getD (i + 1) 0 - d.getD i 0) / d.getD (i + 1) 0)
    ∧ meanReturnsBps days = mean ((allReturns days).map (fun x => x * 10000))
    ∧ stdReturnsBpsSq days
        = sampleVariance ((allReturns days).map (fun x => x * 10000)) := by
  refine ⟨?_, ?_, ?_, ?_⟩
  · intro d _
    unfold dayReturns
    rw [List.length_zipWith, List.length_tail]
    omega
  · intro d _ i hi
    exact dayReturns_getD d i hi
  · unfold meanReturnsBps
    rw [mean_map_mul]
  · unfold stdReturnsBpsSq
    rw [sampleVariance_map_mul]

theorem c7_witness :
    (∀ d ∈ [[(100 : ℚ), 102]], (dayReturns d).length = d.length - 1)
    ∧ (∀ d ∈ [[(100 : ℚ), 102]], ∀ i : ℕ, i + 1 < d.length →
        (dayReturns d).getD i 0
          = (d.getD (i + 1) 0 - d.getD i 0) / d.getD (i + 1) 0)
    ∧ meanReturnsBps [[(100 : ℚ), 102]]
        = mean ((allReturns [[(100 : ℚ), 102]]).map (fun x => x * 10000))
    ∧ stdReturnsBpsSq [[(100 : ℚ), 102]]
        = sampleVariance ((allReturns [[(100 : ℚ), 102]]).map (fun x => x * 10000)) :=
  c7_returns [[(100 : ℚ), 102]]

end NSE

namespace NSE

/-- Claim C4, counterexample: the claim as stated is false.  With an
opening price of `100` and a day maximum of `100.5`, the code computes
`10000 * int(0.5) = 0`, while the claimed `round(10000 × Δ)` gives
`round(5000) = 5000 ≠ 0`: the price difference is truncated to an
integer BEFORE scaling, not rounded after scaling. -/
theorem c4_counterexample :
    dailyPriceMaxBps [⟨1, 100, 100, 5⟩, ⟨1, 200, 201/2, 7⟩] = some [0]
    ∧ round ((10000 : ℚ) * ((201/2 : ℚ) - 100)) = 5000
    ∧ (0 : ℤ) ≠ 5000 := by
  refine ⟨?_, ?_, ?_⟩
  · norm_num [dailyPriceMaxBps, groupByKey, listMax, ratTrunc,
      List.dedup_cons_of_not_mem, List.dedup_nil, List.insertionSort,
      List.orderedInsert, List.filter]
  · norm_num [round_eq]
  · decide

/-- Claim C4, amended: for every non-empty input, the daily price
deviation lists equal, per day group, `max(trade_price) − opening_price`
and `min(trade_price) − opening_price` scaled to basis points via
`10000 × int(Δ)` (Python truncation toward zero of the raw price
difference, then multiplication by 10000 — not `round(10000 × Δ)`),
where `opening_price` is the `trade_price` of the very first record of
the whole input table (not each day's own first trade). -/
theorem c4_amended_daily_deviation (r0 : TradeRow) (rest : List TradeRow) :
    dailyPriceMaxBps (r0 :: rest)
      = some ((groupByKey (fun r => r.trade_date) (r0 :: rest)).map
          (fun kg => 10000 * ratTrunc
            (listMax (kg.2.map (fun r => r.trade_price)) - r0.trade_price)))
    ∧ dailyPriceMinBps (r0 :: rest)
      = some ((groupByKey (fun r => r.trade_date) (r0 :: rest)).map
          (fun kg => 10000 * ratTrunc
            (listMin (kg.2.map (fun r => r.trade_price)) - r0.trade_price))) := by
  constructor
  · simp [dailyPriceMaxBps, List.map_map, Function.comp_def]
  · simp [dailyPriceMinBps, List.map_map, Function.comp_def]

/-- Claim C5 (code bug): on a valid input, `analyze` computes every
statistic of the report but returns the parsed table joined with the
derived timestamp column (`return df`, analyze.py line 212) — not the
report its own docstring promises.  This theorem evaluates `analyze` at
a concrete valid two-row input and shows the result is the data table. -/
theorem c5_returns_table :
    analyze [⟨1, 100, 100, 5⟩, ⟨2, 100, 201/2, 7⟩]
      = Except.ok [(⟨1, 100, 100, 5⟩, 86500), (⟨2, 100, 201/2, 7⟩, 172900)] := by
  norm_num [analyze, groupByKey, resampleDay, sample, sampleAux, sampleFuel,
    listMin, listMax, tradeTimestamp, collectSome,
    dailyPriceMaxBps, dailyPriceMinBps,
    List.dedup_cons_of_not_mem, List.dedup_nil, List.insertionSort,
    List.orderedInsert, List.filter]

/-- Claim C9: for an input with zero records, the analysis fails
explicitly with an error (the `df.ix[0]` access of the opening price
raises on an empty table) rather than silently returning NaN
statistics. -/
theorem c9_empty_input_error :
    analyze ([] : List TradeRow) = Except.error AnalyzeError.emptyInput := rfl

end NSE
